import Mathlib

/-!
Shallow embedding of `src/main.go` (gin-crud-api): an in-memory user store
with create / get / update / delete / search handlers.

Strings are modelled as lists of characters (`Str`).  `goIsSpace` mirrors
Go's `unicode.IsSpace` (the characters with the Unicode White_Space
property), `goTrimSpace` mirrors `strings.TrimSpace`, `containsL` mirrors
`strings.Contains`, and `lowerStr` mirrors `strings.ToLower` on the ASCII
fragment the handlers compare.  HTTP handlers become pure functions from
the store state and the parsed request to a result record carrying the
status code and the data the handler writes; the JSON (de)serialisation
layer of gin is outside the embedding.
-/

abbrev Str := List Char

/-- Characters accepted by Go's `unicode.IsSpace`: '\t', '\n', '\v', '\f',
'\r', ' ', U+0085, U+00A0, and the Unicode White_Space code points. -/
def goIsSpace (c : Char) : Bool :=
  let n := c.toNat
  (9 ≤ n && n ≤ 13) || n = 32 || n = 0x85 || n = 0xA0 ||
  n = 0x1680 || (0x2000 ≤ n && n ≤ 0x200A) ||
  n = 0x2028 || n = 0x2029 || n = 0x202F || n = 0x205F || n = 0x3000

/-- Go `strings.TrimSpace`: drop leading and trailing white space. -/
def goTrimSpace (s : Str) : Str :=
  ((s.dropWhile goIsSpace).reverse.dropWhile goIsSpace).reverse

/-- Go `strings.HasPrefix sub` viewed from the front of `s`:
`startsWithL s sub` is true when `sub` is an initial segment of `s`. -/
def startsWithL : Str → Str → Bool
  | _, [] => true
  | [], _ :: _ => false
  | c :: s, d :: t => c = d && startsWithL s t

/-- Go `strings.Contains s sub`: `sub` occurs inside `s`. -/
def containsL : Str → Str → Bool
  | [], sub => sub.isEmpty
  | s@(_ :: tl), sub => startsWithL s sub || containsL tl sub

/-- Go `strings.ToLower` on the ASCII letters the handlers compare. -/
def lowerStr (s : Str) : Str := s.map Char.toLower

/-- The `User` struct of `main.go`. -/
structure User where
  id : Int
  name : Str
  email : Str
  age : Int
deriving Repr, DecidableEq

/-- The mutable globals of `main.go`: the `users` slice and `nextID`. -/
structure Store where
  users : List User
  nextID : Int
deriving Repr, DecidableEq

/-- The seeded `users` slice. -/
def initialUsers : List User :=
  [⟨1, "John Doe".toList, "john@example.com".toList, 30⟩,
   ⟨2, "Jane Smith".toList, "jane@example.com".toList, 25⟩,
   ⟨3, "Bob Wilson".toList, "bob@example.com".toList, 35⟩]

/-- The initial state: seeded users, `nextID = 4`. -/
def initialStore : Store := ⟨initialUsers, 4⟩

/-- Function `validateUser` of `main.go`; `some msg` is the returned error. -/
def validateUser (user : User) : Option Str :=
  if goTrimSpace user.name = [] then
    some "name is required".toList
  else if goTrimSpace user.email = [] then
    some "email is required".toList
  else if !containsL user.email ['@'] then
    some "invalid email format".toList
  else if user.age ≤ 0 || user.age > 150 then
    some "age must be a positive integer (1-150)".toList
  else
    none

/-- Function `findUserByID` of `main.go`: first user with the id, and its index. -/
def findUserByID : List User → Int → Option (User × Nat)
  | [], _ => none
  | u :: us, id =>
    if u.id = id then some (u, 0)
    else
      match findUserByID us id with
      | none => none
      | some (v, i) => some (v, i + 1)

/-- Result of the POST handler: status, new state, created user if any. -/
structure CreateResult where
  status : Nat
  store : Store
  created : Option User
deriving Repr, DecidableEq

/-- Result of a GET handler: status and the user written as `Data`. -/
structure GetResult where
  status : Nat
  user : Option User
deriving Repr, DecidableEq

/-- Result of the PUT / DELETE handlers: status and new state. -/
structure MutResult where
  status : Nat
  store : Store
deriving Repr, DecidableEq

/-- Result of the search handler: status and the matching slice. -/
structure SearchResult where
  status : Nat
  matching : Option (List User)
deriving Repr, DecidableEq

/-- Handler `createUser`, on an already-decoded body `newUser`. -/
def createUser (st : Store) (newUser : User) : CreateResult :=
  match validateUser newUser with
  | some _ => ⟨400, st, none⟩
  | none =>
    ⟨201,
     ⟨st.users ++ [⟨st.nextID, newUser.name, newUser.email, newUser.age⟩],
      st.nextID + 1⟩,
     some ⟨st.nextID, newUser.name, newUser.email, newUser.age⟩⟩

/-- Handler `getUserByID`, on an already-parsed integer id. -/
def getUserByID (st : Store) (id : Int) : GetResult :=
  match findUserByID st.users id with
  | none => ⟨404, none⟩
  | some (u, _) => ⟨200, some u⟩

/-- Handler `updateUser`, on an already-parsed id and decoded body. -/
def updateUser (st : Store) (id : Int) (updatedData : User) : MutResult :=
  match findUserByID st.users id with
  | none => ⟨404, st⟩
  | some (_, idx) =>
    match validateUser updatedData with
    | some _ => ⟨400, st⟩
    | none =>
      ⟨200, ⟨st.users.set idx ⟨id, updatedData.name, updatedData.email, updatedData.age⟩,
             st.nextID⟩⟩

/-- Handler `deleteUser`: `users = append(users[:idx], users[idx+1:]...)`. -/
def deleteUser (st : Store) (id : Int) : MutResult :=
  match findUserByID st.users id with
  | none => ⟨404, st⟩
  | some (_, idx) =>
    ⟨200, ⟨st.users.take idx ++ st.users.drop (idx + 1), st.nextID⟩⟩

/-- Handler `searchUsers`, on the `name` query parameter. -/
def searchUsers (st : Store) (searchName : Str) : SearchResult :=
  if searchName = [] then ⟨400, none⟩
  else
    ⟨200, some (st.users.filter fun u =>
      containsL (lowerStr u.name) (lowerStr searchName))⟩

/-- One request to the API, already parsed. -/
inductive Op where
  | create (p : User)
  | update (i : Int) (p : User)
  | delete (i : Int)
  | get (i : Int)
  | search (q : Str)
deriving Repr

/-- The state transition and status code of one request. -/
def step (st : Store) : Op → Store × Nat
  | Op.create p => ((createUser st p).store, (createUser st p).status)
  | Op.update i p => ((updateUser st i p).store, (updateUser st i p).status)
  | Op.delete i => ((deleteUser st i).store, (deleteUser st i).status)
  | Op.get i => (st, (getUserByID st i).status)
  | Op.search q => (st, (searchUsers st q).status)

/-- States of the store the running server can be in. -/
inductive Reachable : Store → Prop
  | init : Reachable initialStore
  | step (st : Store) (op : Op) : Reachable st → Reachable (step st op).1

/-- Ids handed out by the server along a sequence of requests, in order. -/
def createdIds : Store → List Op → List Int
  | _, [] => []
  | st, op :: ops =>
    (match op with
     | Op.create p => ((createUser st p).created.map User.id).toList
     | _ => []) ++ createdIds (step st op).1 ops

/-- Invalidity condition as claim C4 words it (a second definition written
from the claim's words, for refinement comparison with `validateUser`):
name empty, email empty or lacking "@", or age outside [1, 150]. -/
def specInvalid (u : User) : Prop :=
  u.name = [] ∨ u.email = [] ∨ containsL u.email ['@'] = false ∨
  u.age < 1 ∨ u.age > 150

/-- Invalidity condition the code actually enforces: name or email blank
after trimming white space, email lacking "@", or age outside [1, 150]. -/
def trimInvalid (u : User) : Prop :=
  goTrimSpace u.name = [] ∨ goTrimSpace u.email = [] ∨
  containsL u.email ['@'] = false ∨ u.age < 1 ∨ u.age > 150

/-- The inductive store invariant: every stored id is below `nextID`, and
the stored ids are pairwise distinct. -/
def StoreInv (st : Store) : Prop :=
  (∀ u ∈ st.users, u.id < st.nextID) ∧ (st.users.map User.id).Nodup

/-! ## Helper lemmas -/

theorem find_eq_none_iff (us : List User) (id : Int) :
    findUserByID us id = none ↔ ∀ u ∈ us, u.id ≠ id := by
  induction us with
  | nil => simp [findUserByID]
  | cons u us ih =>
    by_cases h : u.id = id
    · simp [findUserByID, h]
    · simp only [findUserByID, if_neg h, List.mem_cons]
      cases hf : findUserByID us id with
      | none =>
        rw [hf] at ih
        constructor
        · rintro - v (rfl | hv)
          · exact h
          · exact (ih.1 rfl) v hv
        · intro
          rfl
      | some p =>
        obtain ⟨w, j⟩ := p
        rw [hf] at ih
        constructor
        · intro hcontra
          cases hcontra
        · intro hall
          cases ih.2 fun v hv => hall v (Or.inr hv)

theorem find_eq_some (us : List User) (id : Int) (u : User) (i : Nat)
    (h : findUserByID us id = some (u, i)) :
    us[i]? = some u ∧ u.id = id := by
  induction us generalizing i with
  | nil => simp [findUserByID] at h
  | cons v us ih =>
    by_cases hv : v.id = id
    · simp only [findUserByID, if_pos hv] at h
      obtain ⟨rfl, rfl⟩ : v = u ∧ 0 = i := by
        constructor <;> cases h <;> rfl
      exact ⟨by simp, hv⟩
    · simp only [findUserByID, if_neg hv] at h
      cases hf : findUserByID us id with
      | none => rw [hf] at h; cases h
      | some p =>
        rw [hf] at h
        obtain ⟨w, j⟩ := p
        obtain ⟨rfl, rfl⟩ : w = u ∧ j + 1 = i := by
          constructor <;> cases h <;> rfl
        obtain ⟨h1, h2⟩ := ih j hf
        exact ⟨by simpa using h1, h2⟩

theorem find_append_last (us : List User) (v : User)
    (h : ∀ u ∈ us, u.id ≠ v.id) :
    findUserByID (us ++ [v]) v.id = some (v, us.length) := by
  induction us with
  | nil => simp [findUserByID]
  | cons u us ih =>
    have hu : u.id ≠ v.id := h u (List.mem_cons_self u us)
    simp only [List.cons_append, findUserByID, if_neg hu, List.append_eq]
    rw [ih fun w hw => h w (List.mem_cons_of_mem u hw)]
    simp

theorem storeInv_create (st : Store) (p : User) (h : StoreInv st) :
    StoreInv (createUser st p).store := by
  obtain ⟨hbound, hnodup⟩ := h
  cases hv : validateUser p with
  | some msg => simpa [createUser, hv] using And.intro hbound hnodup
  | none =>
    simp only [createUser, hv]
    constructor
    · intro u hu
      rcases List.mem_append.1 hu with hu | hu
      · have := hbound u hu
        simp only []
        omega
      · rcases List.mem_singleton.1 hu with rfl
        simp only []
        omega
    · rw [List.map_append]
      refine List.nodup_append.2 ⟨hnodup, by simp, ?_⟩
      intro x hx
      rcases List.mem_map.1 hx with ⟨u, hu, rfl⟩
      have := hbound u hu
      simp only [List.map_cons, List.map_nil, List.mem_singleton]
      intro hcontra
      omega

theorem storeInv_update (st : Store) (i : Int) (p : User) (h : StoreInv st) :
    StoreInv (updateUser st i p).store := by
  obtain ⟨hbound, hnodup⟩ := h
  cases hf : findUserByID st.users i with
  | none => simpa [updateUser, hf] using And.intro hbound hnodup
  | some wp =>
    obtain ⟨w, idx⟩ := wp
    obtain ⟨hw, hwid⟩ := find_eq_some st.users i w idx hf
    cases hv : validateUser p with
    | some msg => simpa [updateUser, hf, hv] using And.intro hbound hnodup
    | none =>
      simp only [updateUser, hf, hv]
      have hidseq :
          (st.users.set idx ⟨i, p.name, p.email, p.age⟩).map User.id =
            st.users.map User.id := by
        rw [List.map_set]
        apply List.ext_getElem?
        intro j
        by_cases hj : idx = j
        · subst hj
          rw [List.getElem?_set_self', List.getElem?_map, hw]
          simp [hwid]
        · rw [List.getElem?_set_ne hj]
      constructor
      · intro u hu
        rcases List.mem_or_eq_of_mem_set hu with hu | rfl
        · exact hbound u hu
        · have h1 := hbound w (List.getElem?_mem hw)
          rw [hwid] at h1
          exact h1
      · rw [hidseq]
        exact hnodup

theorem storeInv_delete (st : Store) (i : Int) (h : StoreInv st) :
    StoreInv (deleteUser st i).store := by
  obtain ⟨hbound, hnodup⟩ := h
  cases hf : findUserByID st.users i with
  | none => simpa [deleteUser, hf] using And.intro hbound hnodup
  | some wp =>
    obtain ⟨w, idx⟩ := wp
    simp only [deleteUser, hf]
    have hsub :
        List.Sublist (st.users.take idx ++ st.users.drop (idx + 1)) st.users := by
      rw [← List.eraseIdx_eq_take_drop_succ]
      exact List.eraseIdx_sublist st.users idx
    constructor
    · intro u hu
      exact hbound u (hsub.mem hu)
    · exact hnodup.sublist (hsub.map User.id)

theorem storeInv_step (st : Store) (op : Op) (h : StoreInv st) :
    StoreInv (step st op).1 := by
  cases op with
  | create p => exact storeInv_create st p h
  | update i p => exact storeInv_update st i p h
  | delete i => exact storeInv_delete st i h
  | get i => exact h
  | search q => exact h

theorem reachable_inv (st : Store) (h : Reachable st) : StoreInv st := by
  induction h with
  | init => exact ⟨by decide, by decide⟩
  | step st' op _ ih => exact storeInv_step st' op ih

/-! ## Claim C1 -/

/-- C1: in every reachable state of the store (the seeded state and any
state obtained from it by create, update and delete requests), the stored
user identifiers are pairwise distinct. -/
theorem C1_reachable_ids_nodup (st : Store) (h : Reachable st) :
    (st.users.map User.id).Nodup :=
  (reachable_inv st h).2

/-- Witness for C1: the distinctness holds at the initial store. -/
theorem C1_reachable_ids_nodup_witness :
    (initialStore.users.map User.id).Nodup :=
  C1_reachable_ids_nodup initialStore Reachable.init

/-! ## Claim C2 -/

theorem step_nextID_le (st : Store) (op : Op) :
    st.nextID ≤ (step st op).1.nextID := by
  cases op with
  | create p =>
    cases hv : validateUser p with
    | some msg => simp [step, createUser, hv]
    | none => simp [step, createUser, hv]
  | update i p =>
    cases hf : findUserByID st.users i with
    | none => simp [step, updateUser, hf]
    | some wp =>
      obtain ⟨w, idx⟩ := wp
      cases hv : validateUser p with
      | some msg => simp [step, updateUser, hf, hv]
      | none => simp [step, updateUser, hf, hv]
  | delete i =>
    cases hf : findUserByID st.users i with
    | none => simp [step, deleteUser, hf]
    | some wp =>
      obtain ⟨w, idx⟩ := wp
      simp [step, deleteUser, hf]
  | get i => simp [step]
  | search q => simp [step]

theorem createdIds_lower_bound (ops : List Op) (st : Store) (x : Int)
    (hx : x ∈ createdIds st ops) : st.nextID ≤ x := by
  induction ops generalizing st with
  | nil => simp [createdIds] at hx
  | cons op ops ih =>
    have hmono := step_nextID_le st op
    rcases List.mem_append.1 hx with hx | hx
    · cases op with
      | create p =>
        cases hv : validateUser p with
        | some msg => simp [createUser, hv] at hx
        | none =>
          simp [createUser, hv] at hx
          omega
      | update i p => simp at hx
      | delete i => simp at hx
      | get i => simp at hx
      | search q => simp at hx
    · exact le_trans hmono (ih (step st op).1 hx)

theorem createdIds_pairwise (ops : List Op) (st : Store) :
    (createdIds st ops).Pairwise (· < ·) := by
  induction ops generalizing st with
  | nil => simp [createdIds]
  | cons op ops ih =>
    refine List.pairwise_append.2 ⟨?_, ih (step st op).1, ?_⟩
    · cases op with
      | create p =>
        cases hv : validateUser p with
        | some msg => simp [createUser, hv]
        | none => simp [createUser, hv]
      | update i p => simp
      | delete i => simp
      | get i => simp
      | search q => simp
    · intro a ha b hb
      have hb2 := createdIds_lower_bound ops (step st op).1 b hb
      cases op with
      | create p =>
        cases hv : validateUser p with
        | some msg => simp [createUser, hv] at ha
        | none =>
          simp [createUser, hv] at ha
          have hstep : (step st (Op.create p)).1.nextID = st.nextID + 1 := by
            simp [step, createUser, hv]
          rw [hstep] at hb2
          omega
      | update i p => simp at ha
      | delete i => simp at ha
      | get i => simp at ha
      | search q => simp at ha

/-- C2: server-assigned ids are monotone.  Along any request trace from the
seeded store, the seeded ids followed by the ids handed out by successful
creates are pairwise strictly increasing, so each newly created user gets
an id strictly above every id assigned before it; and the id supplied in a
create request body is ignored (the handler's result does not depend on
it). -/
theorem C2_monotonic_ids :
    (∀ ops : List Op,
      ((initialStore.users.map User.id) ++
        createdIds initialStore ops).Pairwise (· < ·))
  ∧ ∀ st : Store, ∀ p : User, ∀ j : Int,
      createUser st ⟨j, p.name, p.email, p.age⟩ = createUser st p := by
  constructor
  · intro ops
    refine List.pairwise_append.2
      ⟨by decide, createdIds_pairwise ops initialStore, ?_⟩
    intro a ha b hb
    have hb2 := createdIds_lower_bound ops initialStore b hb
    have ha2 : a = 1 ∨ a = 2 ∨ a = 3 := by
      simpa [initialStore, initialUsers] using ha
    have hn : initialStore.nextID = 4 := rfl
    rw [hn] at hb2
    omega
  · intro st p j
    rfl

/-! ## Claim C3 -/

/-- C3: CRUD round trip.  From any state the running server can be in, a
create with a valid payload succeeds with 201, and a get-by-id with the id
the create assigned returns 200 and a user carrying exactly the payload's
name, email and age under the server-assigned id. -/
theorem C3_create_then_get (st : Store) (u : User) (hr : Reachable st)
    (hv : validateUser u = none) :
    ∃ u2 : User,
      (createUser st u).status = 201 ∧
      (createUser st u).created = some u2 ∧
      getUserByID (createUser st u).store u2.id = ⟨200, some u2⟩ ∧
      u2.id = st.nextID ∧ u2.name = u.name ∧ u2.email = u.email ∧
      u2.age = u.age := by
  obtain ⟨hbound, -⟩ := reachable_inv st hr
  refine ⟨⟨st.nextID, u.name, u.email, u.age⟩, ?_, ?_, ?_, rfl, rfl, rfl, rfl⟩
  · simp [createUser, hv]
  · simp [createUser, hv]
  · have hfind :
        findUserByID (st.users ++ [⟨st.nextID, u.name, u.email, u.age⟩])
          st.nextID =
          some (⟨st.nextID, u.name, u.email, u.age⟩, st.users.length) := by
      refine find_append_last st.users ⟨st.nextID, u.name, u.email, u.age⟩ ?_
      intro w hw hcontra
      have := hbound w hw
      rw [hcontra] at this
      exact absurd this (by simp)
    simp [getUserByID, createUser, hv, hfind]

/-- Witness for C3: creating a valid payload in the initial store and
reading it back by the assigned id. -/
theorem C3_create_then_get_witness :
    ∃ u2 : User,
      (createUser initialStore
        ⟨0, "Ada".toList, "ada@example.com".toList, 22⟩).status = 201 ∧
      (createUser initialStore
        ⟨0, "Ada".toList, "ada@example.com".toList, 22⟩).created = some u2 ∧
      getUserByID
        (createUser initialStore
          ⟨0, "Ada".toList, "ada@example.com".toList, 22⟩).store u2.id =
        ⟨200, some u2⟩ ∧
      u2.id = initialStore.nextID ∧
      u2.name = "Ada".toList ∧ u2.email = "ada@example.com".toList ∧
      u2.age = 22 :=
  C3_create_then_get initialStore
    ⟨0, "Ada".toList, "ada@example.com".toList, 22⟩
    Reachable.init (by decide)

/-! ## Claim C4 -/

theorem validateUser_eq_none_iff (u : User) :
    validateUser u = none ↔ ¬ trimInvalid u := by
  unfold validateUser trimInvalid
  split_ifs with h1 h2 h3 h4
  · simp [h1]
  · simp [h1, h2]
  · simp at h3
    simp [h1, h2, h3]
  · simp at h3 h4
    simp [h1, h2, h3]
    omega
  · simp at h3 h4
    simp [h1, h2, h3]
    omega

/-- C4 as stated is false on the code: the payload with name " " (one
space), email "a@b" and age 30 violates none of the claim's conditions
(`specInvalid`, taken verbatim from the claim), yet create rejects it with
status 400, because `validateUser` trims the name before the emptiness
check. -/
theorem C4_counterexample :
    (createUser initialStore ⟨0, [' '], "a@b".toList, 30⟩).status = 400 ∧
    ¬ specInvalid ⟨0, [' '], "a@b".toList, 30⟩ := by
  constructor
  · decide
  · unfold specInvalid
    decide

/-- C4 (amended): create rejects a payload with status 400 — and update
does, whenever a user with the requested id exists — if and only if the
name is empty after trimming white space, or the email is empty after
trimming white space or does not contain "@", or the age is outside
[1, 150]; a payload passing all the (trimmed) checks is accepted. -/
theorem C4_validation_iff (st : Store) (u : User) :
    ((createUser st u).status = 400 ↔ trimInvalid u) ∧
    ((createUser st u).status = 400 ∨ (createUser st u).status = 201) ∧
    ∀ i : Int, (∃ w ∈ st.users, w.id = i) →
      ((updateUser st i u).status = 400 ↔ trimInvalid u) := by
  have hiff := validateUser_eq_none_iff u
  cases hv : validateUser u with
  | some msg =>
    have htrim : trimInvalid u := by
      by_contra hcontra
      rw [hiff.2 hcontra] at hv
      cases hv
    refine ⟨by simp [createUser, hv, htrim], by simp [createUser, hv], ?_⟩
    intro i hex
    cases hf : findUserByID st.users i with
    | none =>
      obtain ⟨w, hw, hwid⟩ := hex
      exact absurd hwid ((find_eq_none_iff st.users i).1 hf w hw)
    | some wp =>
      obtain ⟨w, idx⟩ := wp
      simp [updateUser, hf, hv, htrim]
  | none =>
    have htrim : ¬ trimInvalid u := hiff.1 hv
    refine ⟨by simp [createUser, hv, htrim], by simp [createUser, hv], ?_⟩
    intro i hex
    cases hf : findUserByID st.users i with
    | none =>
      obtain ⟨w, hw, hwid⟩ := hex
      exact absurd hwid ((find_eq_none_iff st.users i).1 hf w hw)
    | some wp =>
      obtain ⟨w, idx⟩ := wp
      simp [updateUser, hf, hv, htrim]

/-- Witness for the amended C4: update of the existing user 1 with a
whitespace-name payload is rejected with 400. -/
theorem C4_validation_iff_witness :
    (updateUser initialStore 1 ⟨0, [' '], "a@b".toList, 30⟩).status = 400 :=
  ((C4_validation_iff initialStore ⟨0, [' '], "a@b".toList, 30⟩).2.2 1
      ⟨⟨1, "John Doe".toList, "john@example.com".toList, 30⟩,
        by decide, by decide⟩).mpr
    (Or.inl (by decide))

/-! ## Claim C5 -/

theorem startsWithL_iff (sub s : Str) :
    startsWithL s sub = true ↔ ∃ t, s = sub ++ t := by
  induction sub generalizing s with
  | nil => simp [startsWithL]
  | cons d t ih =>
    cases s with
    | nil => simp [startsWithL]
    | cons c s =>
      simp [startsWithL, ih, List.cons.injEq, exists_and_left]

theorem containsL_iff (s sub : Str) :
    containsL s sub = true ↔ ∃ l t, s = l ++ sub ++ t := by
  induction s with
  | nil =>
    simp only [containsL, List.isEmpty_iff]
    constructor
    · rintro rfl
      exact ⟨[], [], rfl⟩
    · rintro ⟨l, t, h⟩
      rcases List.append_eq_nil.1 h.symm with ⟨h1, -⟩
      rcases List.append_eq_nil.1 h1 with ⟨-, h3⟩
      exact h3
  | cons c s ih =>
    simp only [containsL, Bool.or_eq_true, startsWithL_iff, ih]
    constructor
    · rintro (⟨t, h⟩ | ⟨l, t, h⟩)
      · exact ⟨[], t, by simpa using h⟩
      · exact ⟨c :: l, t, by simp [h]⟩
    · rintro ⟨l, t, h⟩
      cases l with
      | nil =>
        left
        exact ⟨t, by simpa using h⟩
      | cons x l =>
        right
        simp only [List.cons_append, List.cons.injEq] at h
        exact ⟨l, t, h.2⟩

/-- C5: for a non-empty query, search succeeds and returns the users whose
lower-cased name contains the lower-cased query as a substring, keeping
the relative order of the stored list (the result is a sublist), and no
other users. -/
theorem C5_search_filter (st : Store) (q : Str) (hq : q ≠ []) :
    ∃ r : List User,
      searchUsers st q = ⟨200, some r⟩ ∧
      List.Sublist r st.users ∧
      ∀ u : User, u ∈ r ↔
        u ∈ st.users ∧ ∃ l t, lowerStr u.name = l ++ lowerStr q ++ t := by
  refine ⟨st.users.filter fun u => containsL (lowerStr u.name) (lowerStr q),
    ?_, ?_, ?_⟩
  · simp [searchUsers, hq]
  · exact List.filter_sublist st.users
  · intro u
    simp [List.mem_filter, containsL_iff]

/-- Witness for C5: searching "john" in the initial store. -/
theorem C5_search_filter_witness :
    ∃ r : List User,
      searchUsers initialStore "john".toList = ⟨200, some r⟩ ∧
      List.Sublist r initialStore.users ∧
      ∀ u : User, u ∈ r ↔
        u ∈ initialStore.users ∧
        ∃ l t, lowerStr u.name = l ++ lowerStr "john".toList ++ t :=
  C5_search_filter initialStore "john".toList (by decide)

/-! ## Claim C6 -/

/-- C6: for any state and parsed integer id, get-by-id, update and delete
answer 404 exactly when no stored user carries that id; when one does,
none of them answers 404. -/
theorem C6_notfound_iff (st : Store) (i : Int) (p : User) :
    ((getUserByID st i).status = 404 ↔ ¬ ∃ u ∈ st.users, u.id = i) ∧
    ((updateUser st i p).status = 404 ↔ ¬ ∃ u ∈ st.users, u.id = i) ∧
    ((deleteUser st i).status = 404 ↔ ¬ ∃ u ∈ st.users, u.id = i) := by
  cases hf : findUserByID st.users i with
  | none =>
    have hmiss : ¬ ∃ u ∈ st.users, u.id = i := by
      have hall := (find_eq_none_iff st.users i).1 hf
      rintro ⟨u, hu, hid⟩
      exact hall u hu hid
    refine ⟨?_, ?_, ?_⟩ <;>
      simp [getUserByID, updateUser, deleteUser, hf, hmiss]
  | some wp =>
    obtain ⟨w, idx⟩ := wp
    obtain ⟨hw, hwid⟩ := find_eq_some st.users i w idx hf
    have hex : ∃ u ∈ st.users, u.id = i := ⟨w, List.getElem?_mem hw, hwid⟩
    refine ⟨?_, ?_, ?_⟩
    · simp only [getUserByID, hf]
      exact iff_of_false (by decide) fun hc => hc hex
    · cases hv : validateUser p with
      | some msg =>
        simp only [updateUser, hf, hv]
        exact iff_of_false (by decide) fun hc => hc hex
      | none =>
        simp only [updateUser, hf, hv]
        exact iff_of_false (by decide) fun hc => hc hex
    · simp only [deleteUser, hf]
      exact iff_of_false (by decide) fun hc => hc hex

/-! ## Claim C7 -/

/-- C7: error atomicity.  Whenever a request answers 400 or 404, the store
(user list and next-id counter alike) is exactly what it was before. -/
theorem C7_error_atomicity (st : Store) (op : Op)
    (h : (step st op).2 = 400 ∨ (step st op).2 = 404) :
    (step st op).1 = st := by
  cases op with
  | create p =>
    cases hv : validateUser p with
    | some msg => simp [step, createUser, hv]
    | none => simp [step, createUser, hv] at h
  | update i p =>
    cases hf : findUserByID st.users i with
    | none => simp [step, updateUser, hf]
    | some wp =>
      obtain ⟨w, idx⟩ := wp
      cases hv : validateUser p with
      | some msg => simp [step, updateUser, hf, hv]
      | none => simp [step, updateUser, hf, hv] at h
  | delete i =>
    cases hf : findUserByID st.users i with
    | none => simp [step, deleteUser, hf]
    | some wp =>
      obtain ⟨w, idx⟩ := wp
      simp [step, deleteUser, hf] at h
  | get i => rfl
  | search q => rfl

/-- Witness for C7: deleting the missing id 99 answers 404 and leaves the
initial store unchanged. -/
theorem C7_error_atomicity_witness :
    (step initialStore (Op.delete 99)).1 = initialStore :=
  C7_error_atomicity initialStore (Op.delete 99) (Or.inr (by decide))

/-! ## Claim C8 -/

theorem delete_removes_id (us : List User) (i : Int) (w : User) (idx : Nat)
    (hnd : (us.map User.id).Nodup)
    (hf : findUserByID us i = some (w, idx)) :
    ∀ u ∈ us.take idx ++ us.drop (idx + 1), u.id ≠ i := by
  induction us generalizing idx with
  | nil => simp [findUserByID] at hf
  | cons v us ih =>
    rw [List.map_cons, List.nodup_cons] at hnd
    obtain ⟨hvnin, hnd2⟩ := hnd
    by_cases hv : v.id = i
    · simp only [findUserByID, if_pos hv] at hf
      obtain ⟨rfl, rfl⟩ : v = w ∧ 0 = idx :=
        ⟨by cases hf; rfl, by cases hf; rfl⟩
      simp only [List.take_zero, List.drop_succ_cons, List.drop_zero,
        List.nil_append]
      intro u hu hcontra
      have hmem : u.id ∈ us.map User.id := List.mem_map_of_mem User.id hu
      rw [hcontra, ← hv] at hmem
      exact hvnin hmem
    · simp only [findUserByID, if_neg hv] at hf
      cases hf2 : findUserByID us i with
      | none => rw [hf2] at hf; cases hf
      | some wp =>
        rw [hf2] at hf
        obtain ⟨w2, j⟩ := wp
        obtain ⟨rfl, rfl⟩ : w2 = w ∧ j + 1 = idx :=
          ⟨by cases hf; rfl, by cases hf; rfl⟩
        intro u hu
        simp only [List.take_succ_cons, List.drop_succ_cons,
          List.cons_append, List.mem_cons] at hu
        rcases hu with rfl | hu
        · exact hv
        · exact ih j hnd2 hf2 u hu

/-- C8: frame property of mutation, in any state with pairwise distinct
stored ids (the store invariant).  A successful update rewrites exactly
the slot holding the requested id with the payload under that id, keeping
length, every other slot, and the counter; a successful delete removes
exactly the slot holding the requested id, keeping the relative order of
the others (the result is a sublist), every user with a different id, and
the counter, and shrinking the length by one. -/
theorem C8_frame (st : Store) (i : Int) (p : User)
    (hnd : (st.users.map User.id).Nodup) :
    ((updateUser st i p).status = 200 →
      ∃ k : Nat,
        st.users[k]?.map User.id = some i ∧
        (updateUser st i p).store.users =
          st.users.set k ⟨i, p.name, p.email, p.age⟩ ∧
        (updateUser st i p).store.users.length = st.users.length ∧
        (updateUser st i p).store.users[k]? =
          some ⟨i, p.name, p.email, p.age⟩ ∧
        (∀ j : Nat, j ≠ k →
          (updateUser st i p).store.users[j]? = st.users[j]?) ∧
        (updateUser st i p).store.nextID = st.nextID)
    ∧ ((deleteUser st i).status = 200 →
      ∃ k : Nat,
        st.users[k]?.map User.id = some i ∧
        (deleteUser st i).store.users = st.users.eraseIdx k ∧
        (deleteUser st i).store.users.length + 1 = st.users.length ∧
        List.Sublist (deleteUser st i).store.users st.users ∧
        (∀ u ∈ st.users, u.id ≠ i → u ∈ (deleteUser st i).store.users) ∧
        (∀ u ∈ (deleteUser st i).store.users, u.id ≠ i) ∧
        (deleteUser st i).store.nextID = st.nextID) := by
  constructor
  · intro h200
    cases hf : findUserByID st.users i with
    | none => rw [updateUser, hf] at h200; cases h200
    | some wp =>
      obtain ⟨w, idx⟩ := wp
      obtain ⟨hw, hwid⟩ := find_eq_some st.users i w idx hf
      cases hv : validateUser p with
      | some msg => rw [updateUser, hf, hv] at h200; cases h200
      | none =>
        refine ⟨idx, ?_, ?_, ?_, ?_, ?_, ?_⟩
        · rw [hw]
          simp [hwid]
        · simp [updateUser, hf, hv]
        · simp [updateUser, hf, hv]
        · simp only [updateUser, hf, hv]
          rw [List.getElem?_set_self', hw]
          rfl
        · intro j hj
          simp only [updateUser, hf, hv]
          exact List.getElem?_set_ne (fun hc => hj hc.symm)
        · simp [updateUser, hf, hv]
  · intro h200
    cases hf : findUserByID st.users i with
    | none => rw [deleteUser, hf] at h200; cases h200
    | some wp =>
      obtain ⟨w, idx⟩ := wp
      obtain ⟨hw, hwid⟩ := find_eq_some st.users i w idx hf
      have hlt : idx < st.users.length := by
        rcases List.getElem?_eq_some.1 hw with ⟨hl, -⟩
        exact hl
      have herase :
          (deleteUser st i).store.users = st.users.eraseIdx idx := by
        simp [deleteUser, hf, List.eraseIdx_eq_take_drop_succ]
      refine ⟨idx, ?_, herase, ?_, ?_, ?_, ?_, ?_⟩
      · rw [hw]
        simp [hwid]
      · rw [herase]
        exact List.length_eraseIdx_add_one hlt
      · rw [herase]
        exact List.eraseIdx_sublist st.users idx
      · intro u hu hne
        rw [herase]
        have hdecomp : st.users = st.users.take idx ++ st.users.drop idx :=
          (List.take_append_drop idx st.users).symm
        rw [List.eraseIdx_eq_take_drop_succ]
        rw [hdecomp, List.mem_append] at hu
        rcases hu with hu | hu
        · exact List.mem_append.2 (Or.inl hu)
        · rw [List.drop_eq_getElem_cons hlt, List.mem_cons] at hu
          rcases hu with hueq | hu
          · exfalso
            have hgete : st.users[idx]? = some st.users[idx] :=
              List.getElem?_eq_getElem hlt
            rw [hw] at hgete
            injection hgete with h2
            apply hne
            rw [hueq, ← h2]
            exact hwid
          · exact List.mem_append.2 (Or.inr hu)
      · intro u hu
        rw [herase, List.eraseIdx_eq_take_drop_succ] at hu
        exact delete_removes_id st.users i w idx hnd hf u hu
      · simp [deleteUser, hf]

/-- Witness for C8: updating then deleting user 2 of the initial store. -/
theorem C8_frame_witness :
    (∃ k : Nat,
      initialStore.users[k]?.map User.id = some 2 ∧
      (updateUser initialStore 2
        ⟨0, "Zed".toList, "z@x".toList, 40⟩).store.users =
        initialStore.users.set k ⟨2, "Zed".toList, "z@x".toList, 40⟩ ∧
      (updateUser initialStore 2
        ⟨0, "Zed".toList, "z@x".toList, 40⟩).store.users.length =
        initialStore.users.length ∧
      (updateUser initialStore 2
        ⟨0, "Zed".toList, "z@x".toList, 40⟩).store.users[k]? =
        some ⟨2, "Zed".toList, "z@x".toList, 40⟩ ∧
      (∀ j : Nat, j ≠ k →
        (updateUser initialStore 2
          ⟨0, "Zed".toList, "z@x".toList, 40⟩).store.users[j]? =
          initialStore.users[j]?) ∧
      (updateUser initialStore 2
        ⟨0, "Zed".toList, "z@x".toList, 40⟩).store.nextID =
        initialStore.nextID)
    ∧ ∃ k : Nat,
      initialStore.users[k]?.map User.id = some 2 ∧
      (deleteUser initialStore 2).store.users =
        initialStore.users.eraseIdx k ∧
      (deleteUser initialStore 2).store.users.length + 1 =
        initialStore.users.length ∧
      List.Sublist (deleteUser initialStore 2).store.users
        initialStore.users ∧
      (∀ u ∈ initialStore.users, u.id ≠ 2 →
        u ∈ (deleteUser initialStore 2).store.users) ∧
      (∀ u ∈ (deleteUser initialStore 2).store.users, u.id ≠ 2) ∧
      (deleteUser initialStore 2).store.nextID = initialStore.nextID :=
  ⟨(C8_frame initialStore 2 ⟨0, "Zed".toList, "z@x".toList, 40⟩
      (by decide)).1 (by decide),
   (C8_frame initialStore 2 ⟨0, "Zed".toList, "z@x".toList, 40⟩
      (by decide)).2 (by decide)⟩

/-! ## Claim C9 -/

theorem trim_of_allspace (s : Str) (h : ∀ c ∈ s, goIsSpace c = true) :
    goTrimSpace s = [] := by
  unfold goTrimSpace
  rw [List.dropWhile_eq_nil_iff.2 h]
  simp

/-- C9: validation is stricter than non-emptiness.  A payload whose name
(or email) consists only of white-space characters — in particular a
non-empty one — fails `validateUser`, so create rejects it with 400, and
so does update whenever the requested id exists. -/
theorem C9_whitespace_rejected (u : User) (st : Store)
    (h : (∀ c ∈ u.name, goIsSpace c = true) ∨
         (∀ c ∈ u.email, goIsSpace c = true)) :
    validateUser u ≠ none ∧
    (createUser st u).status = 400 ∧
    ∀ i : Int, (∃ w ∈ st.users, w.id = i) →
      (updateUser st i u).status = 400 := by
  have hv : validateUser u ≠ none := by
    rcases h with h | h
    · have hn := trim_of_allspace u.name h
      unfold validateUser
      rw [if_pos hn]
      simp
    · have he := trim_of_allspace u.email h
      unfold validateUser
      by_cases hn : goTrimSpace u.name = []
      · rw [if_pos hn]
        simp
      · rw [if_neg hn, if_pos he]
        simp
  cases hvv : validateUser u with
  | none => exact absurd hvv hv
  | some msg =>
    refine ⟨by simp, by simp [createUser, hvv], ?_⟩
    intro i hex
    cases hf : findUserByID st.users i with
    | none =>
      obtain ⟨w, hw, hwid⟩ := hex
      exact absurd hwid ((find_eq_none_iff st.users i).1 hf w hw)
    | some wp =>
      obtain ⟨w, idx⟩ := wp
      simp [updateUser, hf, hvv]

/-- Witness for C9: the non-empty, all-space name " " is rejected by
create, and by update of the existing user 1. -/
theorem C9_whitespace_rejected_witness :
    validateUser ⟨0, [' '], "a@b".toList, 30⟩ ≠ none ∧
    (createUser initialStore ⟨0, [' '], "a@b".toList, 30⟩).status = 400 ∧
    ∀ i : Int, (∃ w ∈ initialStore.users, w.id = i) →
      (updateUser initialStore i
        ⟨0, [' '], "a@b".toList, 30⟩).status = 400 :=
  C9_whitespace_rejected ⟨0, [' '], "a@b".toList, 30⟩ initialStore
    (Or.inl (by decide))

/-! ## Claim C10 -/

/-- C10: a search with a non-empty query that matches nobody still answers
200 — never 404 — and its matching list is empty.  (In Go the slice stays
`nil` in that case, and the `json:"data,omitempty"` tag drops the `data`
field from the response body; the embedding records that outcome as
`some []`.) -/
theorem C10_search_no_match (st : Store) (q : Str) (hq : q ≠ [])
    (h : ∀ u ∈ st.users,
      containsL (lowerStr u.name) (lowerStr q) = false) :
    searchUsers st q = ⟨200, some []⟩ := by
  simp only [searchUsers, if_neg hq]
  have hfil :
      st.users.filter
        (fun u => containsL (lowerStr u.name) (lowerStr q)) = [] :=
    List.filter_eq_nil_iff.2 fun u hu => by simp [h u hu]
  rw [hfil]

/-- Witness for C10: searching "zzz" in the initial store matches nobody
and answers 200 with the empty list. -/
theorem C10_search_no_match_witness :
    searchUsers initialStore "zzz".toList = ⟨200, some []⟩ :=
  C10_search_no_match initialStore "zzz".toList (by decide) (by decide)
